import Mathlib

/-!
Verification development for the cNFT governance voter core
(`cnft-voter`): the concurrent-Merkle-tree proof verifier, root-history
oracle, collection weighting policy, vote-receipt ledger and voter-weight
accumulator, together with the test scaffolding in
`tests/program_test/merkle_tree_test.rs`.

Hash values are modelled as the free term algebra `Node`: `Node.nd` is an
idealized collision-free combining hash (two inputs collide only if they
are equal), and `Node.lf` injects raw leaf hashes.  A tree level is a
function from positions to nodes; `levelUp` computes the next level.
-/

namespace CnftVoter

/-- Idealized hash domain: `lf v` is a raw (leaf) hash value, `nd l r` is
the combining hash of `l` and `r`.  Constructor injectivity models
collision freeness of the hash. -/
inductive Node where
  | lf : Nat → Node
  | nd : Node → Node → Node
deriving DecidableEq

/-- Index of the sibling of tree position `i`: the other child of the same
parent. -/
def sib (i : Nat) : Nat := if i % 2 = 0 then i + 1 else i - 1

/-- `flipBit i k` is `i` with bit `k` flipped, on natural numbers. -/
def flipBit (i k : Nat) : Nat :=
  if i / 2 ^ k % 2 = 0 then i + 2 ^ k else i - 2 ^ k

/-- Combine a running hash with a sibling hash; bit 0 of `i` decides the
side (0 = running hash is the left child). -/
def combine (cur s : Node) (i : Nat) : Node :=
  if i % 2 = 0 then .nd cur s else .nd s cur

/-- Modelled from the spec: recompute the root bottom-up from a leaf hash,
its index, and the ordered list of sibling hashes (§4.1 of the spec; the
production verifier is not in the visible sources). -/
def computeRoot (leaf : Node) (i : Nat) (proof : List Node) : Node :=
  match proof with
  | [] => leaf
  | s :: rest => computeRoot (combine leaf s i) (i / 2) rest

/-- One level up in a tree given as a position-indexed level of nodes. -/
def levelUp (f : Nat → Node) : Nat → Node :=
  fun j => .nd (f (2 * j)) (f (2 * j + 1))

/-- Root of the depth-`d` tree honestly built over the leaf level `f`. -/
def rootOf : Nat → (Nat → Node) → Node
  | 0, f => f 0
  | d + 1, f => rootOf d (levelUp f)

/-- Honest inclusion proof (sibling list, bottom-up) for leaf `i` of the
depth-`d` tree over leaf level `f`. -/
def proofOf : Nat → Nat → (Nat → Node) → List Node
  | 0, _, _ => []
  | d + 1, i, f => f (sib i) :: proofOf d (i / 2) (levelUp f)

inductive VerifyResult where
  | Ok
  | ProofInvalid
  | ProofLengthMismatch
  | IndexOutOfRange
  | RootTooStale
deriving DecidableEq

/-- Continue hashing upward through cached canopy levels: at each cached
level the sibling is looked up in the level function instead of being
taken from the supplied proof. -/
def climb (lvls : List (Nat → Node)) (cur : Node) (pos : Nat) : Node :=
  match lvls with
  | [] => cur
  | g :: rest => climb rest (combine cur (g (sib pos)) pos) (pos / 2)

/-- The sibling hashes a full-depth proof would contain in place of the
cached canopy levels. -/
def sibList (lvls : List (Nat → Node)) (pos : Nat) : List Node :=
  match lvls with
  | [] => []
  | g :: rest => g (sib pos) :: sibList rest (pos / 2)

/-- Modelled from the spec: `verify(root, leaf_hash, index, proof, depth,
canopy)` (§4.1; the production verifier is not in the visible sources).
Checks the index range, then the proof length against `depth − canopy`,
then recomputes the root from the proof and, for a non-zero canopy,
continues against the cached canopy levels; byte-exact root comparison. -/
def verify (root leaf : Node) (index : Nat) (proof : List Node)
    (depth canopy : Nat) (canopyLevels : List (Nat → Node)) : VerifyResult :=
  if 2 ^ depth ≤ index then .IndexOutOfRange
  else if proof.length ≠ depth - canopy then .ProofLengthMismatch
  else if climb canopyLevels (computeRoot leaf index proof)
      (index / 2 ^ (depth - canopy)) = root then .Ok
  else .ProofInvalid

/-! ## Test scaffolding from `merkle_tree_test.rs` (code under `src/`) -/

/-- Byte size of the external `spl_account_compression::ConcurrentMerkleTree
<DEPTH, BUFFER>` struct: three `u64` header words, `BUFFER` change-log
entries (root node, `DEPTH` path nodes, index, padding) and one rightmost
`Path` (`DEPTH` proof nodes, leaf node, index, padding); nodes are 32
bytes.  This mirrors the external crate's layout used via `size_of` in the
source. -/
def concurrentMerkleTreeSize (maxDepth maxBufferSize : Nat) : Nat :=
  24 + maxBufferSize * (40 + 32 * maxDepth) + (40 + 32 * maxDepth)

inductive AccountCompressionError where
  | ConcurrentMerkleTreeConstantsError
deriving DecidableEq

/-- The 26 `(max_depth, max_buffer_size)` pairs enumerated by the arms of
the `match` in `merkle_tree_get_size`. -/
def supportedPairs : List (Nat × Nat) :=
  [(3, 8), (5, 8), (14, 64), (14, 256), (14, 1024), (14, 2048),
   (15, 64), (16, 64), (17, 64), (18, 64), (19, 64),
   (20, 64), (20, 256), (20, 1024), (20, 2048),
   (24, 64), (24, 256), (24, 512), (24, 1024), (24, 2048),
   (26, 512), (26, 1024), (26, 2048),
   (30, 512), (30, 1024), (30, 2048)]

/-- `merkle_tree_get_size` from `merkle_tree_test.rs`: the source's 26-arm
match on `(max_depth, max_buffer_size)`, each arm returning
`size_of::<ConcurrentMerkleTree<D, B>>()`, is rendered as membership in
the explicit arm list; the wildcard arm returns
`ConcurrentMerkleTreeConstantsError`. -/
def merkle_tree_get_size (max_depth max_buffer_size : Nat) :
    Except AccountCompressionError Nat :=
  if (max_depth, max_buffer_size) ∈ supportedPairs then
    .ok (concurrentMerkleTreeSize max_depth max_buffer_size)
  else .error .ConcurrentMerkleTreeConstantsError

/-- `CONCURRENT_MERKLE_TREE_HEADER_SIZE_V1` from `spl_account_compression`
(account discriminant plus header fields). -/
def CONCURRENT_MERKLE_TREE_HEADER_SIZE_V1 : Nat := 56

/-- `merkle_tree_account_size` from `merkle_tree_test.rs`:
`CONCURRENT_MERKLE_TREE_HEADER_SIZE_V1 + merkle_tree_get_size(..).unwrap()`.
The `unwrap` panic on the error case is modelled as `none`. -/
def merkle_tree_account_size (max_depth max_buffer_size : Nat) : Option Nat :=
  match merkle_tree_get_size max_depth max_buffer_size with
  | .ok s => some (CONCURRENT_MERKLE_TREE_HEADER_SIZE_V1 + s)
  | .error _ => none

/-- `MerkleTreeArgs` from `merkle_tree_test.rs`. -/
structure MerkleTreeArgs where
  max_depth : Nat
  max_buffer_size : Nat
  public : Option Bool
deriving DecidableEq

/-- `MerkleTreeArgs::default()` from `merkle_tree_test.rs`. -/
def MerkleTreeArgs.default : MerkleTreeArgs :=
  { max_depth := 5, max_buffer_size := 8, public := some false }

/-- The pure fields of the `MerkleTreeCookie` built by `with_merkle_tree`;
`proof_tree_leaves` records the leaves the reference `MerkleTree` oracle is
constructed from (`Node::default()` is the all-zero 32-byte node, modelled
as `0`). -/
structure MerkleTreeCookie where
  canopy_depth : Nat
  proof_tree_leaves : List Nat
  num_minted : Nat
  args : Option MerkleTreeArgs
deriving DecidableEq

/-- The success path of `with_merkle_tree` from `merkle_tree_test.rs`,
restricted to its pure result: `args.unwrap_or_default()`, a reference
proof tree over `vec![Node::default(); 1 << max_depth]`, `canopy_depth: 0`
and `num_minted: 0`. -/
def with_merkle_tree (args : Option MerkleTreeArgs) : MerkleTreeCookie :=
  let a := args.getD MerkleTreeArgs.default
  { canopy_depth := 0
    proof_tree_leaves := List.replicate (2 ^ a.max_depth) 0
    num_minted := 0
    args := some a }

/-! ## Concurrent root oracle (spec §4.2) -/

/-- One retained root-change: the root produced and the leaf index of the
change that produced it. -/
structure OracleEntry where
  root : Node
  changeIndex : Nat
deriving DecidableEq

/-- Modelled from the spec: the root oracle's ring buffer of the last
`capacity = max_buffer_size` root-changes, newest first (§4.2; the
production oracle is not in the visible sources). -/
structure OracleState where
  capacity : Nat
  history : List OracleEntry
deriving DecidableEq

/-- Ingest a root-change event: push it newest-first and evict the oldest
entries beyond the capacity. -/
def recordChange (st : OracleState) (newRoot : Node) (idx : Nat) : OracleState :=
  { st with history := ({ root := newRoot, changeIndex := idx } :: st.history).take st.capacity }

/-- Entries recorded after (newer than) the newest occurrence of `r` in the
retained history; `none` when `r` is not retained. -/
def newerChanges : List OracleEntry → Node → Option (List OracleEntry)
  | [], _ => none
  | e :: rest, r =>
    if e.root = r then some [] else (newerChanges rest r).map (e :: ·)

/-- Modelled from the spec: a change at leaf `changeIdx` touches the proof
path of a claim at `claimIdx` when the two indices share a prefix bit-path
up to the depth actually used, i.e. agree above the `d − u` lowest levels
(§4.2). -/
def sharesPrefixPath (changeIdx claimIdx d u : Nat) : Bool :=
  changeIdx / 2 ^ (d - u) == claimIdx / 2 ^ (d - u)

/-- Modelled from the spec: `verify_against_history(root, leaf_hash,
index, proof)` (§4.2; the production oracle is not in the visible
sources).  Fails with `RootTooStale` when the root has aged out of the
ring buffer; rejects when a retained change recorded after that root
touched the claim index's proof path; otherwise checks the proof against
the historical root. -/
def verify_against_history (st : OracleState) (d : Nat) (root leaf : Node)
    (index : Nat) (proof : List Node) : VerifyResult :=
  match newerChanges st.history root with
  | none => .RootTooStale
  | some newer =>
    if newer.any (fun e => sharesPrefixPath e.changeIndex index d proof.length)
    then .ProofInvalid
    else if computeRoot leaf index proof = root then .Ok
    else .ProofInvalid

/-! ## Collection eligibility and weighting policy (spec §4.3) -/

/-- Modelled from the spec: per-collection policy entry — participation
flag, fixed weight, and optional per-unit multiplier (§4.3). -/
structure CollectionConfig where
  eligible : Bool
  fixedWeight : Nat
  sizeMultiplier : Option Nat
deriving DecidableEq

/-- Registrar configuration: collection identifier to policy entry. -/
def lookupConfig : List (Nat × CollectionConfig) → Nat → Option CollectionConfig
  | [], _ => none
  | (c, cfg) :: rest, cid => if c = cid then some cfg else lookupConfig rest cid

/-- Modelled from the spec: `weight_for(collection_id, leaf_metadata)`
(§4.3; the production policy is not in the visible sources).  Unknown or
ineligible collections yield `none` (`Ineligible`); otherwise the weight
is the fixed amount or per-unit times the configured multiplier. -/
def weight_for (reg : List (Nat × CollectionConfig)) (cid units : Nat) :
    Option Int :=
  match lookupConfig reg cid with
  | none => none
  | some cfg =>
    if cfg.eligible then
      some (match cfg.sizeMultiplier with
        | some m => Int.ofNat (units * m)
        | none => Int.ofNat cfg.fixedWeight)
    else none

/-! ## Vote-receipt ledger, voter weight accumulator and the claim
pipeline (spec §4.4, §4.5) -/

inductive RecordResult where
  | Recorded
  | AlreadyRecorded
deriving DecidableEq

/-- Modelled from the spec: the ledger of receipts keyed by
`(decision id, tree id, leaf nonce)`, the per-`(decision, voter)` weight
records, and the set of closed decisions (§4.4, §4.5, §3). -/
structure SystemState where
  receipts : List (Nat × Nat × Nat)
  weights : List ((Nat × Nat) × Int)
  closedDecisions : List Nat
deriving DecidableEq

/-- Modelled from the spec: `record_once(decision_id, tree_id, leaf_nonce)`
— atomic create-if-absent on the receipt key (§4.4). -/
def record_once (st : SystemState) (k : Nat × Nat × Nat) :
    RecordResult × SystemState :=
  if k ∈ st.receipts then (.AlreadyRecorded, st)
  else (.Recorded, { st with receipts := k :: st.receipts })

/-- Current `total_weight` of a `(decision, voter)` record (0 before any
accrual); newest record first. -/
def lookupWeight : List ((Nat × Nat) × Int) → Nat × Nat → Int
  | [], _ => 0
  | (k, v) :: rest, key => if k = key then v else lookupWeight rest key

inductive AccrueResult where
  | ok : Int → AccrueResult
  | decisionClosed
deriving DecidableEq

/-- Modelled from the spec: `accrue(decision_id, voter, delta)` — fails
with `DecisionClosed` once the owning decision is closed, otherwise adds
`delta` to the voter's `total_weight` and returns the new total (§4.5). -/
def accrue (st : SystemState) (decision voter : Nat) (delta : Int) :
    AccrueResult × SystemState :=
  if decision ∈ st.closedDecisions then (.decisionClosed, st)
  else
    (.ok (lookupWeight st.weights (decision, voter) + delta),
     { st with weights :=
        ((decision, voter), lookupWeight st.weights (decision, voter) + delta)
          :: st.weights })

/-- A submitted claim: ownership of leaf `leaf` at `index` (uniqueness
token `nonce`) of tree `treeId`, proven against `root`, contributing for
`voter` in `decision` through collection `collection` with `units`
metadata units. -/
structure Claim where
  decision : Nat
  voter : Nat
  treeId : Nat
  root : Node
  leaf : Node
  index : Nat
  nonce : Nat
  proof : List Node
  collection : Nat
  units : Nat
deriving DecidableEq

inductive RejectReason where
  | ProofInvalid
  | RootTooStale
  | Ineligible
  | AlreadyRecorded
  | DecisionClosed
deriving DecidableEq

inductive ClaimOutcome where
  | WeightAccrued : Int → ClaimOutcome
  | Rejected : RejectReason → ClaimOutcome
deriving DecidableEq

/-- Modelled from the spec: the single-claim state machine — verify
inclusion against the root oracle, compute the collection weight, record
the receipt, accrue the weight; any rejection terminates the claim with
the original state (no partial mutation, §4.5, §7). -/
def process_claim (oracle : OracleState) (d : Nat)
    (reg : List (Nat × CollectionConfig)) (st : SystemState) (c : Claim) :
    ClaimOutcome × SystemState :=
  match verify_against_history oracle d c.root c.leaf c.index c.proof with
  | .RootTooStale => (.Rejected .RootTooStale, st)
  | .Ok =>
    match weight_for reg c.collection c.units with
    | none => (.Rejected .Ineligible, st)
    | some w =>
      match record_once st (c.decision, c.treeId, c.nonce) with
      | (.AlreadyRecorded, _) => (.Rejected .AlreadyRecorded, st)
      | (.Recorded, st1) =>
        match accrue st1 c.decision c.voter w with
        | (.decisionClosed, _) => (.Rejected .DecisionClosed, st)
        | (.ok nt, st2) => (.WeightAccrued nt, st2)
  | _ => (.Rejected .ProofInvalid, st)

/-- One pipeline operation: a claim processed against an oracle snapshot,
tree depth and registrar configuration. -/
def stepClaim (st : SystemState)
    (op : OracleState × Nat × List (Nat × CollectionConfig) × Claim) :
    SystemState :=
  (process_claim op.1 op.2.1 op.2.2.1 st op.2.2.2).2

/-- Process a sequence of claims. -/
def processAll (ops : List (OracleState × Nat × List (Nat × CollectionConfig) × Claim))
    (st : SystemState) : SystemState :=
  ops.foldl stepClaim st

/-! ## Concrete data used in examples and witnesses -/

/-- Spec §8 example leaf level: depth-3 tree, all leaves zero except leaf
5, which is the distinct hash `H5` (modelled as `lf 1`). -/
def exLeaves : Nat → Node := fun j => .lf (if j = 5 then 1 else 0)

/-- All-zero leaf level. -/
def zeroLeaves : Nat → Node := fun _ => .lf 0

/-- Pairwise-distinct leaf level. -/
def idLeaves : Nat → Node := fun j => .lf j

/-- Injectivity of a leaf level on the first `n` positions. -/
def LeafInj (f : Nat → Node) (n : Nat) : Prop :=
  ∀ a, a < n → ∀ b, b < n → f a = f b → a = b

/-- A concrete one-level canopy used in witnesses. -/
def cwLvls : List (Nat → Node) := [fun j => Node.lf (j + 10)]

/-- A concrete hash-valid root for the oracle witnesses (the root the
proof `[lf 0, lf 2, lf 3]` recomputes for leaf `lf 1` at index 5). -/
def exRootC3 : Node := computeRoot (Node.lf 1) 5 [Node.lf 0, Node.lf 2, Node.lf 3]

/-- Oracle whose history retains `exRootC3` followed by one change at the
unrelated index 3. -/
def exOracleC3 : OracleState :=
  { capacity := 8,
    history := [{ root := Node.lf 9, changeIndex := 3 },
                { root := exRootC3, changeIndex := 0 }] }

/-- Oracle whose history no longer retains `exRootC3`. -/
def exOracleStale : OracleState :=
  { capacity := 8, history := [{ root := Node.lf 9, changeIndex := 0 }] }

/-- Oracle retaining only `exRootC3`, with no newer change. -/
def exOracleC2 : OracleState :=
  { capacity := 8, history := [{ root := exRootC3, changeIndex := 0 }] }

/-- Oracle with an empty retained history. -/
def exOracleEmpty : OracleState := { capacity := 8, history := [] }

/-- Registrar with one eligible collection (id 1) of fixed weight 10. -/
def exReg : List (Nat × CollectionConfig) :=
  [(1, { eligible := true, fixedWeight := 10, sizeMultiplier := none })]

/-- Empty governance state. -/
def exSysSt : SystemState :=
  { receipts := [], weights := [], closedDecisions := [] }

/-- Governance state in which decision 1 is closed and voter 2 holds
weight 10 for it. -/
def exStClosed : SystemState :=
  { receipts := [], weights := [((1, 2), 10)], closedDecisions := [1] }

/-- A concrete hash-valid claim against `exRootC3`. -/
def exClaim : Claim :=
  { decision := 1, voter := 2, treeId := 3, root := exRootC3,
    leaf := Node.lf 1, index := 5, nonce := 7,
    proof := [Node.lf 0, Node.lf 2, Node.lf 3], collection := 1, units := 2 }

/-! ## Arithmetic helpers -/

theorem sib_div_two (i : Nat) : sib i / 2 = i / 2 := by
  unfold sib; split <;> omega

theorem sib_ne (i : Nat) : sib i ≠ i := by
  unfold sib; split <;> omega

theorem sib_mod_two_ne (i : Nat) : sib i % 2 ≠ i % 2 := by
  unfold sib; split <;> omega

theorem sib_lt {d i : Nat} (h : i < 2 ^ (d + 1)) : sib i < 2 ^ (d + 1) := by
  have h2 : 2 ^ (d + 1) = 2 * 2 ^ d := by rw [pow_succ]; ring
  unfold sib; split <;> omega

theorem flipBit_zero (i : Nat) : flipBit i 0 = sib i := by
  unfold flipBit sib
  simp

theorem two_pow_le_of_bit_set {i k : Nat} (h : i / 2 ^ k % 2 ≠ 0) :
    2 ^ k ≤ i := by
  by_contra hlt
  push_neg at hlt
  rw [Nat.div_eq_of_lt hlt] at h
  exact h rfl

theorem flipBit_succ_mod_two (i k : Nat) : flipBit i (k + 1) % 2 = i % 2 := by
  have h2 : 2 ^ (k + 1) = 2 * 2 ^ k := by rw [pow_succ]; ring
  unfold flipBit
  by_cases h : i / 2 ^ (k + 1) % 2 = 0
  · rw [if_pos h]; omega
  · rw [if_neg h]
    have := two_pow_le_of_bit_set h
    omega

theorem flipBit_succ_div_two (i k : Nat) :
    flipBit i (k + 1) / 2 = flipBit (i / 2) k := by
  have h2 : 2 ^ (k + 1) = 2 * 2 ^ k := by rw [pow_succ]; ring
  have hd : i / 2 ^ (k + 1) = i / 2 / 2 ^ k := by
    rw [Nat.div_div_eq_div_mul, ← h2]
  unfold flipBit
  rw [hd]
  by_cases h : i / 2 / 2 ^ k % 2 = 0
  · rw [if_pos h, if_pos h]
    omega
  · rw [if_neg h, if_neg h]
    omega

theorem flipBit_lt : ∀ k d i, k < d → i < 2 ^ d → flipBit i k < 2 ^ d := by
  intro k
  induction k with
  | zero =>
    intro d i hk hi
    obtain ⟨d', rfl⟩ : ∃ d', d = d' + 1 := ⟨d - 1, by omega⟩
    rw [flipBit_zero]
    exact sib_lt hi
  | succ k ih =>
    intro d i hk hi
    obtain ⟨d', rfl⟩ : ∃ d', d = d' + 1 := ⟨d - 1, by omega⟩
    have h1 := flipBit_succ_div_two i k
    have h2 := flipBit_succ_mod_two i k
    have h3 : 2 ^ (d' + 1) = 2 * 2 ^ d' := by rw [pow_succ]; ring
    have h4 : flipBit (i / 2) k < 2 ^ d' := ih d' (i / 2) (by omega) (by omega)
    omega

/-! ## Round-trip and flip lemmas for the proof verifier -/

theorem combine_sib (f : Nat → Node) (i : Nat) :
    combine (f i) (f (sib i)) i = levelUp f (i / 2) := by
  unfold combine sib levelUp
  by_cases h : i % 2 = 0
  · simp only [if_pos h]
    rw [show 2 * (i / 2) = i from by omega]
  · simp only [if_neg h]
    rw [show 2 * (i / 2) = i - 1 from by omega,
        show (i - 1) + 1 = i from by omega]

theorem proofOf_length : ∀ d i f, (proofOf d i f).length = d := by
  intro d
  induction d with
  | zero => intro i f; rfl
  | succ d ih => intro i f; simp [proofOf, ih]

theorem round_trip : ∀ d (f : Nat → Node) i, i < 2 ^ d →
    computeRoot (f i) i (proofOf d i f) = rootOf d f := by
  intro d
  induction d with
  | zero =>
    intro f i hi
    have h1 : (2 : Nat) ^ 0 = 1 := pow_zero 2
    have h0 : i = 0 := by omega
    subst h0
    rfl
  | succ d ih =>
    intro f i hi
    have h2 : 2 ^ (d + 1) = 2 * 2 ^ d := by rw [pow_succ]; ring
    show computeRoot (f i) i (f (sib i) :: proofOf d (i / 2) (levelUp f)) =
      rootOf d (levelUp f)
    simp only [computeRoot]
    rw [combine_sib]
    exact ih (levelUp f) (i / 2) (by omega)

theorem computeRoot_start_ne : ∀ (p q : List Node) (x y : Node) (i : Nat),
    p.length = q.length → x ≠ y → computeRoot x i p ≠ computeRoot y i q := by
  intro p
  induction p with
  | nil =>
    intro q x y i hl hne
    cases q with
    | nil => simpa [computeRoot] using hne
    | cons b q => simp at hl
  | cons a p ih =>
    intro q x y i hl hne
    cases q with
    | nil => simp at hl
    | cons b q =>
      simp only [computeRoot]
      refine ih q _ _ (i / 2) (by simpa using hl) ?_
      unfold combine
      by_cases h : i % 2 = 0
      · simp only [if_pos h, ne_eq, Node.nd.injEq]
        intro hcon
        exact hne hcon.1
      · simp only [if_neg h, ne_eq, Node.nd.injEq]
        intro hcon
        exact hne hcon.2

theorem computeRoot_proof_ne : ∀ (p q : List Node) (x : Node) (i : Nat),
    p.length = q.length → p ≠ q → computeRoot x i p ≠ computeRoot x i q := by
  intro p
  induction p with
  | nil =>
    intro q x i hl hne
    cases q with
    | nil => exact absurd rfl hne
    | cons b q => simp at hl
  | cons a p ih =>
    intro q x i hl hne
    cases q with
    | nil => simp at hl
    | cons b q =>
      simp only [computeRoot]
      by_cases hab : a = b
      · subst hab
        refine ih q _ (i / 2) (by simpa using hl) ?_
        intro hpq
        exact hne (by rw [hpq])
      · refine computeRoot_start_ne p q _ _ (i / 2) (by simpa using hl) ?_
        unfold combine
        by_cases h : i % 2 = 0
        · simp only [if_pos h, ne_eq, Node.nd.injEq]
          intro hcon
          exact hab hcon.2
        · simp only [if_neg h, ne_eq, Node.nd.injEq]
          intro hcon
          exact hab hcon.1

theorem levelUp_inj {f : Nat → Node} {d : Nat} (hf : LeafInj f (2 ^ (d + 1))) :
    LeafInj (levelUp f) (2 ^ d) := by
  intro a ha b hb hab
  have h2 : 2 ^ (d + 1) = 2 * 2 ^ d := by rw [pow_succ]; ring
  unfold levelUp at hab
  injection hab with h1 _
  have := hf (2 * a) (by omega) (2 * b) (by omega) h1
  omega

theorem flip_index_ne : ∀ d (f : Nat → Node) i k, i < 2 ^ d → k < d →
    LeafInj f (2 ^ d) →
    computeRoot (f i) (flipBit i k) (proofOf d i f) ≠ rootOf d f := by
  intro d
  induction d with
  | zero =>
    intro f i k _ hk _
    omega
  | succ d ih =>
    intro f i k hi hk hinj
    have h2 : 2 ^ (d + 1) = 2 * 2 ^ d := by rw [pow_succ]; ring
    cases k with
    | zero =>
      rw [flipBit_zero]
      show computeRoot (f i) (sib i)
          (f (sib i) :: proofOf d (i / 2) (levelUp f)) ≠ rootOf (d + 1) f
      simp only [computeRoot]
      rw [sib_div_two]
      have hroot : rootOf (d + 1) f =
          computeRoot (levelUp f (i / 2)) (i / 2)
            (proofOf d (i / 2) (levelUp f)) := by
        rw [show rootOf (d + 1) f = rootOf d (levelUp f) from rfl]
        exact (round_trip d (levelUp f) (i / 2) (by omega)).symm
      rw [hroot]
      refine computeRoot_start_ne _ _ _ _ _ rfl ?_
      rw [← combine_sib f i]
      unfold combine
      by_cases h : i % 2 = 0
      · rw [if_neg (by have := sib_mod_two_ne i; omega), if_pos h]
        intro hcon
        injection hcon with hL _
        exact sib_ne i (hinj (sib i) (sib_lt hi) i hi hL)
      · rw [if_pos (by have := sib_mod_two_ne i; omega), if_neg h]
        intro hcon
        injection hcon with hL _
        exact sib_ne i ((hinj i hi (sib i) (sib_lt hi) hL).symm)
    | succ k =>
      show computeRoot (f i) (flipBit i (k + 1))
          (f (sib i) :: proofOf d (i / 2) (levelUp f)) ≠ rootOf (d + 1) f
      simp only [computeRoot]
      rw [flipBit_succ_div_two]
      have hc : combine (f i) (f (sib i)) (flipBit i (k + 1)) =
          combine (f i) (f (sib i)) i := by
        unfold combine
        rw [flipBit_succ_mod_two]
      rw [hc, combine_sib]
      exact ih (levelUp f) (i / 2) k (by omega) (by omega) (levelUp_inj hinj)

theorem idLeaves_inj (n : Nat) : LeafInj idLeaves n := by
  intro a _ b _ h
  exact Node.lf.inj h

theorem verify_no_canopy (root leaf : Node) (i : Nat) (p : List Node) (d : Nat) :
    verify root leaf i p d 0 [] =
      if 2 ^ d ≤ i then .IndexOutOfRange
      else if p.length ≠ d then .ProofLengthMismatch
      else if computeRoot leaf i p = root then .Ok
      else .ProofInvalid := rfl

/-! ## Canopy lemmas -/

theorem sibList_length : ∀ (lvls : List (Nat → Node)) (pos : Nat),
    (sibList lvls pos).length = lvls.length := by
  intro lvls
  induction lvls with
  | nil => intro pos; rfl
  | cons g rest ih => intro pos; simp [sibList, ih]

theorem climb_eq_computeRoot : ∀ (lvls : List (Nat → Node)) (cur : Node) (pos : Nat),
    climb lvls cur pos = computeRoot cur pos (sibList lvls pos) := by
  intro lvls
  induction lvls with
  | nil => intro cur pos; rfl
  | cons g rest ih =>
    intro cur pos
    show climb rest (combine cur (g (sib pos)) pos) (pos / 2) =
      computeRoot (combine cur (g (sib pos)) pos) (pos / 2)
        (sibList rest (pos / 2))
    exact ih _ _

theorem computeRoot_append : ∀ (p q : List Node) (leaf : Node) (i : Nat),
    computeRoot leaf i (p ++ q) =
      computeRoot (computeRoot leaf i p) (i / 2 ^ p.length) q := by
  intro p
  induction p with
  | nil => intro q leaf i; simp [computeRoot]
  | cons a p ih =>
    intro q leaf i
    show computeRoot (combine leaf a i) (i / 2) (p ++ q) = _
    rw [ih q (combine leaf a i) (i / 2)]
    have hdd : i / 2 / 2 ^ p.length = i / 2 ^ (p.length + 1) := by
      rw [Nat.div_div_eq_div_mul, ← pow_succ']
    rw [hdd]
    rfl

/-- Claim C1 (amended): for every tree honestly constructed from leaves
`L_0..L_{2^d−1}`, `verify(root, L_i, i, proof_i, d, 0)` succeeds for every
index `i`; it returns `ProofInvalid` whenever `L_i` is replaced by a
different leaf hash (any single bit flip included) or `proof_i` by a
different proof of the same length (any single bit flip included); and,
provided the leaves are pairwise distinct, whenever any single bit of
`index` below position `d` is flipped.  In particular, for the depth-3
tree whose leaves are all zero except leaf 5 = H5,
`verify(root, H5, 5, proof, 3, 0)` succeeds and `verify` with index 3 and
the same proof fails with `ProofInvalid`. -/
theorem verify_round_trip_and_flips (d : Nat) (f : Nat → Node) (i : Nat)
    (hi : i < 2 ^ d) :
    verify (rootOf d f) (f i) i (proofOf d i f) d 0 [] = .Ok ∧
    (∀ leaf', leaf' ≠ f i →
      verify (rootOf d f) leaf' i (proofOf d i f) d 0 [] = .ProofInvalid) ∧
    (∀ proof', proof'.length = d → proof' ≠ proofOf d i f →
      verify (rootOf d f) (f i) i proof' d 0 [] = .ProofInvalid) ∧
    (LeafInj f (2 ^ d) → ∀ k, k < d →
      verify (rootOf d f) (f i) (flipBit i k) (proofOf d i f) d 0 [] =
        .ProofInvalid) ∧
    (verify (rootOf 3 exLeaves) (Node.lf 1) 5 (proofOf 3 5 exLeaves) 3 0 [] =
        .Ok ∧
      verify (rootOf 3 exLeaves) (Node.lf 1) 3 (proofOf 3 5 exLeaves) 3 0 [] =
        .ProofInvalid) := by
  have hlen := proofOf_length d i f
  have hrt := round_trip d f i hi
  refine ⟨?_, ?_, ?_, ?_, by decide, by decide⟩
  · rw [verify_no_canopy, if_neg (by omega), if_neg (by simp [hlen]),
      if_pos hrt]
  · intro leaf' hne
    have hhash : computeRoot leaf' i (proofOf d i f) ≠ rootOf d f := by
      rw [← hrt]
      exact computeRoot_start_ne _ _ _ _ _ rfl hne
    rw [verify_no_canopy, if_neg (by omega), if_neg (by simp [hlen]),
      if_neg hhash]
  · intro proof' hplen hpne
    have hhash : computeRoot (f i) i proof' ≠ rootOf d f := by
      rw [← hrt]
      exact computeRoot_proof_ne proof' (proofOf d i f) (f i) i
        (by rw [hplen, hlen]) hpne
    rw [verify_no_canopy, if_neg (by omega), if_neg (by simp [hplen]),
      if_neg hhash]
  · intro hinj k hk
    have hflt : flipBit i k < 2 ^ d := flipBit_lt k d i hk hi
    have hhash : computeRoot (f i) (flipBit i k) (proofOf d i f) ≠ rootOf d f :=
      flip_index_ne d f i k hi hk hinj
    rw [verify_no_canopy, if_neg (by omega), if_neg (by simp [hlen]),
      if_neg hhash]

/-- Counterexample to claim C1 as stated: in the honestly constructed
depth-1 all-zero tree, flipping the single index bit of a verifying claim
does not yield `ProofInvalid` — verification still succeeds, because the
two sibling leaves are equal, so the recomputed root is unchanged. -/
theorem verify_index_flip_counterexample :
    verify (rootOf 1 zeroLeaves) (zeroLeaves 0) 0 (proofOf 1 0 zeroLeaves)
        1 0 [] = .Ok ∧
    verify (rootOf 1 zeroLeaves) (zeroLeaves 0) (flipBit 0 0)
        (proofOf 1 0 zeroLeaves) 1 0 [] = .Ok := by
  decide

/-- Witness for C1 at concrete inputs: depth 1, pairwise-distinct leaves,
index 0, index bit 0 flipped. -/
theorem verify_round_trip_and_flips_witness :
    (0 : Nat) < 2 ^ 1 ∧
    verify (rootOf 1 idLeaves) (idLeaves 0) (flipBit 0 0)
        (proofOf 1 0 idLeaves) 1 0 [] = .ProofInvalid :=
  ⟨by decide,
   (verify_round_trip_and_flips 1 idLeaves 0 (by decide)).2.2.2.1
     (idLeaves_inj (2 ^ 1)) 0 (by decide)⟩

/-- Claim C7: for the same tree state, verification with canopy depth `c`
and a proof of length `d − c` produces the same accept/reject outcome as
full-depth verification (canopy 0) of the same claim with the length-`d`
proof obtained by extending the short proof with the cached canopy
siblings. -/
theorem verify_canopy_equiv (d c : Nat) (hc : c ≤ d)
    (lvls : List (Nat → Node)) (hl : lvls.length = c)
    (root leaf : Node) (i : Nat) (p : List Node) :
    verify root leaf i p d c lvls =
      verify root leaf i (p ++ sibList lvls (i / 2 ^ (d - c))) d 0 [] := by
  have hlen : (p ++ sibList lvls (i / 2 ^ (d - c))).length = p.length + c := by
    simp [sibList_length, hl]
  unfold verify
  by_cases h1 : 2 ^ d ≤ i
  · rw [if_pos h1, if_pos h1]
  · rw [if_neg h1, if_neg h1]
    by_cases h2 : p.length = d - c
    · have hA : ¬(p.length ≠ d - c) := by omega
      have hB : ¬((p ++ sibList lvls (i / 2 ^ (d - c))).length ≠ d - 0) := by
        omega
      rw [if_neg hA, if_neg hB, climb_eq_computeRoot, climb_eq_computeRoot,
        computeRoot_append, h2]
      simp [sibList, computeRoot]
    · have hB : (p ++ sibList lvls (i / 2 ^ (d - c))).length ≠ d - 0 := by
        omega
      rw [if_pos h2, if_pos hB]

/-- Witness for C7 at concrete inputs: depth 2, canopy 1, a one-element
proof against an arbitrary root. -/
theorem verify_canopy_equiv_witness :
    verify (Node.lf 0) (Node.lf 1) 2 [Node.lf 2] 2 1 cwLvls =
      verify (Node.lf 0) (Node.lf 1) 2
        ([Node.lf 2] ++ sibList cwLvls (2 / 2 ^ (2 - 1))) 2 0 [] :=
  verify_canopy_equiv 2 1 (by omega) cwLvls rfl (Node.lf 0) (Node.lf 1) 2
    [Node.lf 2]

/-! ## Oracle lemmas -/

theorem newerChanges_none : ∀ (l : List OracleEntry) (r : Node),
    (∀ e ∈ l, e.root ≠ r) → newerChanges l r = none := by
  intro l
  induction l with
  | nil => intro r _; rfl
  | cons e rest ih =>
    intro r h
    unfold newerChanges
    rw [if_neg (h e (by simp)), ih r (fun x hx => h x (by simp [hx]))]
    rfl

theorem newerChanges_some : ∀ (l : List OracleEntry) (r : Node)
    (newer : List OracleEntry), newerChanges l r = some newer →
    ∃ e post, l = newer ++ e :: post ∧ e.root = r := by
  intro l
  induction l with
  | nil =>
    intro r newer h
    exact absurd h (by simp [newerChanges])
  | cons e rest ih =>
    intro r newer h
    unfold newerChanges at h
    by_cases he : e.root = r
    · rw [if_pos he] at h
      obtain rfl : newer = [] := by
        injection h with h'
        exact h'.symm
      exact ⟨e, rest, rfl, he⟩
    · rw [if_neg he] at h
      cases hrec : newerChanges rest r with
      | none =>
        rw [hrec] at h
        exact absurd h (by simp)
      | some n' =>
        rw [hrec] at h
        have h2 : some (e :: n') = some newer := h
        obtain rfl : newer = e :: n' := by
          injection h2 with h'
          exact h'.symm
        obtain ⟨e', post, hsplit, hroot⟩ := ih r n' hrec
        exact ⟨e', post, by rw [hsplit]; rfl, hroot⟩

theorem newerChanges_of_split : ∀ (pre : List OracleEntry) (e : OracleEntry)
    (post : List OracleEntry) (r : Node), e.root = r →
    ∃ newer, newerChanges (pre ++ e :: post) r = some newer ∧
      ∀ x ∈ newer, x ∈ pre := by
  intro pre
  induction pre with
  | nil =>
    intro e post r he
    refine ⟨[], ?_, by simp⟩
    show newerChanges (e :: post) r = some []
    unfold newerChanges
    rw [if_pos he]
  | cons a pre ih =>
    intro e post r he
    by_cases ha : a.root = r
    · refine ⟨[], ?_, by simp⟩
      show newerChanges (a :: (pre ++ e :: post)) r = some []
      unfold newerChanges
      rw [if_pos ha]
    · obtain ⟨n', hn', hsub⟩ := ih e post r he
      refine ⟨a :: n', ?_, ?_⟩
      · show newerChanges (a :: (pre ++ e :: post)) r = some (a :: n')
        unfold newerChanges
        rw [if_neg ha, hn']
        rfl
      · intro x hx
        cases List.mem_cons.mp hx with
        | inl h => rw [h]; exact List.mem_cons_self a pre
        | inr h => exact List.mem_cons_of_mem a (hsub x h)

theorem vah_eq_of_some (st : OracleState) (d : Nat) (root leaf : Node)
    (index : Nat) (proof : List Node) (newer : List OracleEntry)
    (hrec : newerChanges st.history root = some newer) :
    verify_against_history st d root leaf index proof =
      (if newer.any
          (fun e => sharesPrefixPath e.changeIndex index d proof.length)
       then .ProofInvalid
       else if computeRoot leaf index proof = root then .Ok
       else .ProofInvalid) := by
  unfold verify_against_history
  rw [hrec]

theorem vah_eq_of_none (st : OracleState) (d : Nat) (root leaf : Node)
    (index : Nat) (proof : List Node)
    (hrec : newerChanges st.history root = none) :
    verify_against_history st d root leaf index proof = .RootTooStale := by
  unfold verify_against_history
  rw [hrec]

/-- Claim C3: a hash-valid proof is accepted by `verify_against_history`
iff the supplied root exists in the oracle's retained history and no
retained change recorded after that root touched the claim index's proof
path; a root that has aged out of the ring buffer fails with
`RootTooStale` (so a retained root followed only by changes to unrelated
indices is still accepted). -/
theorem verify_against_history_spec (st : OracleState) (d : Nat)
    (root leaf : Node) (index : Nat) (proof : List Node)
    (hvalid : computeRoot leaf index proof = root) :
    (verify_against_history st d root leaf index proof = .Ok ↔
      ∃ pre e post, st.history = pre ++ e :: post ∧ e.root = root ∧
        ∀ x ∈ pre,
          sharesPrefixPath x.changeIndex index d proof.length = false) ∧
    ((∀ e ∈ st.history, e.root ≠ root) →
      verify_against_history st d root leaf index proof = .RootTooStale) := by
  constructor
  · constructor
    · intro hok
      cases hrec : newerChanges st.history root with
      | none =>
        rw [vah_eq_of_none st d root leaf index proof hrec] at hok
        exact absurd hok (by decide)
      | some newer =>
        rw [vah_eq_of_some st d root leaf index proof newer hrec] at hok
        by_cases hany : newer.any
            (fun e => sharesPrefixPath e.changeIndex index d proof.length) = true
        · rw [if_pos hany] at hok
          exact absurd hok (by decide)
        · obtain ⟨e, post, hsplit, hroot⟩ :=
            newerChanges_some st.history root newer hrec
          refine ⟨newer, e, post, hsplit, hroot, ?_⟩
          intro x hx
          cases hpx : sharesPrefixPath x.changeIndex index d proof.length with
          | false => rfl
          | true => exact absurd (List.any_eq_true.mpr ⟨x, hx, hpx⟩) hany
    · rintro ⟨pre, e, post, hsplit, hroot, hclean⟩
      obtain ⟨newer, hn, hsub⟩ := newerChanges_of_split pre e post root hroot
      have hrec : newerChanges st.history root = some newer := by
        rw [hsplit]
        exact hn
      rw [vah_eq_of_some st d root leaf index proof newer hrec]
      have hnotany : ¬(newer.any
          (fun e => sharesPrefixPath e.changeIndex index d proof.length) = true) := by
        rw [List.any_eq_true]
        rintro ⟨x, hx, hpx⟩
        rw [hclean x (hsub x hx)] at hpx
        exact absurd hpx (by decide)
      rw [if_neg hnotany, if_pos hvalid]
  · intro h
    exact vah_eq_of_none st d root leaf index proof
      (newerChanges_none st.history root h)

/-- Witness for C3 at concrete inputs: the retained root followed only by
a change to unrelated index 3 is accepted for claim index 5; the same
hash-valid claim on an oracle that no longer retains the root fails with
`RootTooStale`. -/
theorem verify_against_history_spec_witness :
    verify_against_history exOracleC3 3 exRootC3 (Node.lf 1) 5
        [Node.lf 0, Node.lf 2, Node.lf 3] = .Ok ∧
    verify_against_history exOracleStale 3 exRootC3 (Node.lf 1) 5
        [Node.lf 0, Node.lf 2, Node.lf 3] = .RootTooStale :=
  ⟨(verify_against_history_spec exOracleC3 3 exRootC3 (Node.lf 1) 5
      [Node.lf 0, Node.lf 2, Node.lf 3] rfl).1.mpr
      ⟨[{ root := Node.lf 9, changeIndex := 3 }],
       { root := exRootC3, changeIndex := 0 }, [], rfl, rfl, by decide⟩,
   (verify_against_history_spec exOracleStale 3 exRootC3 (Node.lf 1) 5
      [Node.lf 0, Node.lf 2, Node.lf 3] rfl).2 (by decide)⟩

/-! ## Governance pipeline lemmas -/

theorem weight_for_nonneg : ∀ (reg : List (Nat × CollectionConfig))
    (cid units : Nat) (w : Int), weight_for reg cid units = some w → 0 ≤ w := by
  intro reg cid units w h
  unfold weight_for at h
  split at h
  · exact absurd h (by simp)
  · split at h
    · split at h
      · injection h with h'
        subst h'
        exact Int.natCast_nonneg _
      · injection h with h'
        subst h'
        exact Int.natCast_nonneg _
    · exact absurd h (by simp)

theorem record_once_recorded_inv {st : SystemState} {k : Nat × Nat × Nat}
    {st1 : SystemState} (h : record_once st k = (.Recorded, st1)) :
    k ∉ st.receipts ∧ st1 = { st with receipts := k :: st.receipts } := by
  unfold record_once at h
  by_cases hk : k ∈ st.receipts
  · rw [if_pos hk] at h
    injection h with h1 _
    exact absurd h1 (by simp)
  · rw [if_neg hk] at h
    injection h with _ h2
    exact ⟨hk, h2.symm⟩

theorem accrue_ok_inv {st : SystemState} {dec v : Nat} {δ nt : Int}
    {st2 : SystemState} (h : accrue st dec v δ = (.ok nt, st2)) :
    dec ∉ st.closedDecisions ∧ nt = lookupWeight st.weights (dec, v) + δ ∧
    st2 = { st with weights :=
      ((dec, v), lookupWeight st.weights (dec, v) + δ) :: st.weights } := by
  unfold accrue at h
  by_cases hd : dec ∈ st.closedDecisions
  · rw [if_pos hd] at h
    injection h with h1 _
    exact absurd h1 (by simp)
  · rw [if_neg hd] at h
    injection h with h1 h2
    injection h1 with h1'
    exact ⟨hd, h1'.symm, h2.symm⟩

theorem process_claim_state (oracle : OracleState) (d : Nat)
    (reg : List (Nat × CollectionConfig)) (st : SystemState) (c : Claim) :
    (process_claim oracle d reg st c).2 = st ∨
    ∃ w, weight_for reg c.collection c.units = some w ∧ 0 ≤ w ∧
      (process_claim oracle d reg st c).1 =
        .WeightAccrued (lookupWeight st.weights (c.decision, c.voter) + w) ∧
      (process_claim oracle d reg st c).2.receipts =
        (c.decision, c.treeId, c.nonce) :: st.receipts ∧
      (process_claim oracle d reg st c).2.weights =
        ((c.decision, c.voter),
          lookupWeight st.weights (c.decision, c.voter) + w) :: st.weights ∧
      (process_claim oracle d reg st c).2.closedDecisions =
        st.closedDecisions := by
  unfold process_claim
  split
  · exact Or.inl rfl
  · split
    · exact Or.inl rfl
    · rename_i w heqw
      split
      · exact Or.inl rfl
      · rename_i st1 heq
        obtain ⟨hk, rfl⟩ := record_once_recorded_inv heq
        split
        · exact Or.inl rfl
        · rename_i nt st2 heq2
          obtain ⟨hd, rfl, rfl⟩ := accrue_ok_inv heq2
          exact Or.inr ⟨w, heqw,
            weight_for_nonneg reg c.collection c.units w heqw, rfl, rfl, rfl, rfl⟩
  · exact Or.inl rfl

theorem process_claim_success (oracle : OracleState) (d : Nat)
    (reg : List (Nat × CollectionConfig)) (st : SystemState) (c : Claim)
    (w : Int)
    (hver : verify_against_history oracle d c.root c.leaf c.index c.proof = .Ok)
    (hw : weight_for reg c.collection c.units = some w)
    (hfresh : (c.decision, c.treeId, c.nonce) ∉ st.receipts)
    (hopen : c.decision ∉ st.closedDecisions) :
    process_claim oracle d reg st c =
      (.WeightAccrued (lookupWeight st.weights (c.decision, c.voter) + w),
       { receipts := (c.decision, c.treeId, c.nonce) :: st.receipts,
         weights := ((c.decision, c.voter),
           lookupWeight st.weights (c.decision, c.voter) + w) :: st.weights,
         closedDecisions := st.closedDecisions }) := by
  unfold process_claim
  rw [hver, hw]
  split
  · rename_i heq
    exact absurd heq (by decide)
  · split
    · rename_i heq
      exact absurd heq (by simp)
    · rename_i w' heqw
      obtain rfl : w' = w := by
        injection heqw with h'
        exact h'.symm
      split
      · rename_i snd heq
        exfalso
        unfold record_once at heq
        rw [if_neg hfresh] at heq
        injection heq with h1 _
        exact absurd h1 (by simp)
      · rename_i st1 heq
        obtain ⟨hk, rfl⟩ := record_once_recorded_inv heq
        split
        · rename_i snd heq2
          exfalso
          unfold accrue at heq2
          rw [if_neg (show c.decision ∉
            ({ st with receipts :=
                (c.decision, c.treeId, c.nonce) :: st.receipts }
              : SystemState).closedDecisions from hopen)] at heq2
          injection heq2 with h1 _
          exact absurd h1 (by simp)
        · rename_i nt st2 heq2
          obtain ⟨hd, rfl, rfl⟩ := accrue_ok_inv heq2
          rfl
  · rename_i x h1 h2
    exact absurd rfl h2

theorem process_claim_already (oracle : OracleState) (d : Nat)
    (reg : List (Nat × CollectionConfig)) (st : SystemState) (c : Claim)
    (w : Int)
    (hver : verify_against_history oracle d c.root c.leaf c.index c.proof = .Ok)
    (hw : weight_for reg c.collection c.units = some w)
    (hkey : (c.decision, c.treeId, c.nonce) ∈ st.receipts) :
    process_claim oracle d reg st c = (.Rejected .AlreadyRecorded, st) := by
  unfold process_claim
  rw [hver, hw]
  split
  · rename_i heq
    exact absurd heq (by decide)
  · split
    · rename_i heq
      exact absurd heq (by simp)
    · rename_i w' heqw
      obtain rfl : w' = w := by
        injection heqw with h'
        exact h'.symm
      split
      · rfl
      · rename_i st1 heq
        exfalso
        unfold record_once at heq
        rw [if_pos hkey] at heq
        injection heq with h1 _
        exact absurd h1 (by simp)
  · rename_i x h1 h2
    exact absurd rfl h2

/-- Claim C2: from a state in which the key `(decision, tree, nonce)` has
not yet been recorded, `record_once` returns `Recorded` on the first call
and `AlreadyRecorded` on the second; processing the same claim twice
accrues the weight once — the second call rejects with `AlreadyRecorded`,
leaves the state untouched, and `total_weight` reflects exactly one
accrual. -/
theorem record_once_idempotent (oracle : OracleState) (d : Nat)
    (reg : List (Nat × CollectionConfig)) (st : SystemState) (c : Claim)
    (w : Int)
    (hver : verify_against_history oracle d c.root c.leaf c.index c.proof = .Ok)
    (hw : weight_for reg c.collection c.units = some w)
    (hfresh : (c.decision, c.treeId, c.nonce) ∉ st.receipts)
    (hopen : c.decision ∉ st.closedDecisions) :
    (record_once st (c.decision, c.treeId, c.nonce)).1 = .Recorded ∧
    (record_once ((process_claim oracle d reg st c).2)
        (c.decision, c.treeId, c.nonce)).1 = .AlreadyRecorded ∧
    (process_claim oracle d reg st c).1 =
      .WeightAccrued (lookupWeight st.weights (c.decision, c.voter) + w) ∧
    (process_claim oracle d reg ((process_claim oracle d reg st c).2) c).1 =
      .Rejected .AlreadyRecorded ∧
    (process_claim oracle d reg ((process_claim oracle d reg st c).2) c).2 =
      (process_claim oracle d reg st c).2 ∧
    lookupWeight
        ((process_claim oracle d reg
            ((process_claim oracle d reg st c).2) c).2).weights
        (c.decision, c.voter) =
      lookupWeight st.weights (c.decision, c.voter) + w := by
  have hs := process_claim_success oracle d reg st c w hver hw hfresh hopen
  have hs2 := process_claim_already oracle d reg
    { receipts := (c.decision, c.treeId, c.nonce) :: st.receipts,
      weights := ((c.decision, c.voter),
        lookupWeight st.weights (c.decision, c.voter) + w) :: st.weights,
      closedDecisions := st.closedDecisions } c w hver hw (by simp)
  refine ⟨?_, ?_, ?_, ?_, ?_, ?_⟩
  · simp [record_once, hfresh]
  · rw [hs]
    simp [record_once]
  · rw [hs]
  · rw [hs]
    rw [hs2]
  · rw [hs]
    rw [hs2]
  · rw [hs]
    rw [hs2]
    simp [lookupWeight]

/-- Witness for C2 at concrete inputs: a fresh hash-valid claim of weight
10 is recorded first, and its exact retry is rejected as a duplicate. -/
theorem record_once_idempotent_witness :
    (record_once exSysSt (1, 3, 7)).1 = .Recorded ∧
    (process_claim exOracleC2 3 exReg
        ((process_claim exOracleC2 3 exReg exSysSt exClaim).2) exClaim).1 =
      .Rejected .AlreadyRecorded :=
  ⟨(record_once_idempotent exOracleC2 3 exReg exSysSt exClaim 10
      (by decide) (by decide) (by decide) (by decide)).1,
   (record_once_idempotent exOracleC2 3 exReg exSysSt exClaim 10
      (by decide) (by decide) (by decide) (by decide)).2.2.2.1⟩

/-- Claim C4: every claim that terminates in any `Rejected` outcome leaves
the vote-receipt ledger and the voter weight accumulator exactly as they
were; only a claim that reaches `WeightAccrued` writes to either. -/
theorem process_claim_rejected_no_mutation (oracle : OracleState) (d : Nat)
    (reg : List (Nat × CollectionConfig)) (st : SystemState) (c : Claim)
    (r : RejectReason)
    (h : (process_claim oracle d reg st c).1 = .Rejected r) :
    (process_claim oracle d reg st c).2 = st := by
  rcases process_claim_state oracle d reg st c with hs | ⟨w, _, _, hout, _⟩
  · exact hs
  · rw [hout] at h
    exact absurd h (by simp)

/-- Witness for C4 at concrete inputs: a claim rejected with
`RootTooStale` against an empty oracle leaves the state untouched. -/
theorem process_claim_rejected_no_mutation_witness :
    (process_claim exOracleEmpty 3 exReg exSysSt exClaim).2 = exSysSt :=
  process_claim_rejected_no_mutation exOracleEmpty 3 exReg exSysSt exClaim
    .RootTooStale (by decide)

theorem lookupWeight_step (st : SystemState)
    (op : OracleState × Nat × List (Nat × CollectionConfig) × Claim)
    (key : Nat × Nat) :
    lookupWeight st.weights key ≤ lookupWeight (stepClaim st op).weights key := by
  obtain ⟨oracle, d, reg, c⟩ := op
  show lookupWeight st.weights key ≤
    lookupWeight (process_claim oracle d reg st c).2.weights key
  rcases process_claim_state oracle d reg st c with hs | ⟨w, _, hwpos, _, _, hwt, _⟩
  · rw [hs]
  · rw [hwt]
    simp only [lookupWeight]
    by_cases hk : (c.decision, c.voter) = key
    · rw [if_pos hk]
      subst hk
      omega
    · rw [if_neg hk]

theorem lookupWeight_mono_all : ∀ (ops : List (OracleState × Nat ×
      List (Nat × CollectionConfig) × Claim)) (st : SystemState)
    (key : Nat × Nat),
    lookupWeight st.weights key ≤ lookupWeight (processAll ops st).weights key := by
  intro ops
  induction ops with
  | nil => intro st key; exact le_refl _
  | cons op rest ih =>
    intro st key
    exact le_trans (lookupWeight_step st op key) (ih (stepClaim st op) key)

/-- Claim C5: `weight_for` never returns a negative value, unknown and
ineligible collections contribute nothing, and `total_weight` is
monotonically non-decreasing across every sequence of claim-processing
operations. -/
theorem weight_nonneg_and_monotone :
    (∀ (reg : List (Nat × CollectionConfig)) (cid units : Nat) (w : Int),
      weight_for reg cid units = some w → 0 ≤ w) ∧
    (∀ (reg : List (Nat × CollectionConfig)) (cid units : Nat)
      (cfg : CollectionConfig), lookupConfig reg cid = some cfg →
      cfg.eligible = false → weight_for reg cid units = none) ∧
    (∀ (reg : List (Nat × CollectionConfig)) (cid units : Nat),
      lookupConfig reg cid = none → weight_for reg cid units = none) ∧
    (∀ (ops : List (OracleState × Nat ×
        List (Nat × CollectionConfig) × Claim)) (st : SystemState)
      (key : Nat × Nat),
      lookupWeight st.weights key ≤
        lookupWeight (processAll ops st).weights key) := by
  refine ⟨weight_for_nonneg, ?_, ?_, lookupWeight_mono_all⟩
  · intro reg cid units cfg hc he
    simp [weight_for, hc, he]
  · intro reg cid units hc
    simp [weight_for, hc]

/-- Witness for C5 at concrete inputs: the configured weight 10 is
non-negative, and an unknown collection id is ineligible. -/
theorem weight_nonneg_and_monotone_witness :
    (0 : Int) ≤ 10 ∧ weight_for exReg 5 0 = none :=
  ⟨weight_nonneg_and_monotone.1 exReg 1 2 10 (by decide),
   weight_nonneg_and_monotone.2.2.1 exReg 5 0 (by decide)⟩

/-- Claim C6: once a decision is closed, every `accrue` call on it fails
with `DecisionClosed` and the voter's `total_weight` is unchanged by the
attempt. -/
theorem accrue_decision_closed (st : SystemState) (decision voter : Nat)
    (delta : Int) (h : decision ∈ st.closedDecisions) :
    accrue st decision voter delta = (.decisionClosed, st) ∧
    lookupWeight (accrue st decision voter delta).2.weights
        (decision, voter) =
      lookupWeight st.weights (decision, voter) := by
  constructor
  · unfold accrue
    rw [if_pos h]
  · unfold accrue
    rw [if_pos h]

/-- Witness for C6 at concrete inputs: accruing 5 more for closed decision
1 fails and leaves voter 2's weight at 10. -/
theorem accrue_decision_closed_witness :
    accrue exStClosed 1 2 5 = (.decisionClosed, exStClosed) ∧
    lookupWeight (accrue exStClosed 1 2 5).2.weights (1, 2) =
      lookupWeight exStClosed.weights (1, 2) :=
  accrue_decision_closed exStClosed 1 2 5 (by decide)

/-- Claim C8: whenever `merkle_tree_get_size` returns `Ok`, the requested
`max_buffer_size` is a power of two, and every pair outside the supported
set returns the `ConcurrentMerkleTreeConstantsError` error rather than a
size. -/
theorem merkle_tree_get_size_ok_pow_two :
    (∀ d b s, merkle_tree_get_size d b = .ok s → ∃ k, b = 2 ^ k) ∧
    (∀ d b, (d, b) ∉ supportedPairs →
      merkle_tree_get_size d b =
        .error AccountCompressionError.ConcurrentMerkleTreeConstantsError) := by
  constructor
  · intro d b s h
    unfold merkle_tree_get_size at h
    by_cases hmem : (d, b) ∈ supportedPairs
    · fin_cases hmem <;>
        first
          | exact ⟨3, rfl⟩
          | exact ⟨6, rfl⟩
          | exact ⟨8, rfl⟩
          | exact ⟨9, rfl⟩
          | exact ⟨10, rfl⟩
          | exact ⟨11, rfl⟩
    · rw [if_neg hmem] at h
      exact absurd h (by simp)
  · intro d b h
    unfold merkle_tree_get_size
    rw [if_neg h]

/-- Witness for C8 at concrete inputs: buffer size 8 of the supported pair
`(3, 8)` is a power of two, and the unsupported pair `(4, 9)` yields the
constants error. -/
theorem merkle_tree_get_size_ok_pow_two_witness :
    (∃ k, (8 : Nat) = 2 ^ k) ∧
    merkle_tree_get_size 4 9 =
      .error AccountCompressionError.ConcurrentMerkleTreeConstantsError :=
  ⟨merkle_tree_get_size_ok_pow_two.1 3 8 (concurrentMerkleTreeSize 3 8) rfl,
   merkle_tree_get_size_ok_pow_two.2 4 9 (by decide)⟩

/-- Claim C9: every successful `with_merkle_tree` call returns a cookie
whose reference proof tree is built from exactly `2 ^ max_depth` default
(all-zero) leaves, with `num_minted = 0` and `canopy_depth = 0`; when no
args are supplied the defaults `max_depth = 5`, `max_buffer_size = 8`,
`public = Some(false)` are used. -/
theorem with_merkle_tree_cookie (args : Option MerkleTreeArgs) :
    (with_merkle_tree args).num_minted = 0 ∧
    (with_merkle_tree args).canopy_depth = 0 ∧
    (with_merkle_tree args).proof_tree_leaves =
      List.replicate (2 ^ (args.getD MerkleTreeArgs.default).max_depth) 0 ∧
    (with_merkle_tree args).proof_tree_leaves.length =
      2 ^ (args.getD MerkleTreeArgs.default).max_depth ∧
    (∀ x ∈ (with_merkle_tree args).proof_tree_leaves, x = 0) ∧
    with_merkle_tree none =
      with_merkle_tree (some { max_depth := 5, max_buffer_size := 8,
                               public := some false }) := by
  refine ⟨rfl, rfl, rfl, by simp [with_merkle_tree], ?_, rfl⟩
  intro x hx
  exact List.eq_of_mem_replicate hx

/-- Witness for C9 at the concrete input `none`: the default cookie has
`2 ^ 5` leaves, all zero. -/
theorem with_merkle_tree_cookie_witness :
    (with_merkle_tree none).proof_tree_leaves.length = 2 ^ 5 ∧
    (∀ x ∈ (with_merkle_tree none).proof_tree_leaves, x = 0) :=
  ⟨(with_merkle_tree_cookie none).2.2.2.1,
   (with_merkle_tree_cookie none).2.2.2.2.1⟩

/-- Claim C10: `merkle_tree_account_size` is total exactly on the supported
pairs, where it returns the V1 header size plus the tree size; on every
unsupported pair the `unwrap` panics (modelled as `none`) instead of
returning an error to the caller. -/
theorem merkle_tree_account_size_domain :
    (∀ d b, (d, b) ∈ supportedPairs ↔
      (merkle_tree_account_size d b).isSome = true) ∧
    (∀ d b s, merkle_tree_get_size d b = .ok s →
      merkle_tree_account_size d b =
        some (CONCURRENT_MERKLE_TREE_HEADER_SIZE_V1 + s)) ∧
    (∀ d b, (d, b) ∉ supportedPairs → merkle_tree_account_size d b = none) := by
  refine ⟨fun d b => ?_, fun d b s h => ?_, fun d b h => ?_⟩
  · unfold merkle_tree_account_size merkle_tree_get_size
    by_cases hmem : (d, b) ∈ supportedPairs
    · simp [hmem]
    · simp [hmem]
  · unfold merkle_tree_account_size
    rw [h]
  · unfold merkle_tree_account_size merkle_tree_get_size
    rw [if_neg h]

/-- Witness for C10 at concrete inputs: the supported pair `(3, 8)` gets a
size, the unsupported pair `(4, 9)` reaches the panic case. -/
theorem merkle_tree_account_size_domain_witness :
    (merkle_tree_account_size 3 8).isSome = true ∧
    merkle_tree_account_size 4 9 = none :=
  ⟨(merkle_tree_account_size_domain.1 3 8).mp (by decide),
   merkle_tree_account_size_domain.2.2 4 9 (by decide)⟩

end CnftVoter
